import Mathlib

/-!
Verification of the trite client/server (Go) against its specification.

File names are modelled as `List Char` so that the splitting and suffix
logic of `common.go` can be reasoned about structurally.  Side-effecting
code (SQL statements, file-system calls, channel sends, wait-group
operations) is embedded as explicit action traces over the inductive
`Trite.Action` type; a small disk semantics interprets the file actions.
-/

namespace Trite

/-! ### common.go: parseFileName and helpers -/

/-- Model of Go `strings.Split(text, ".")` over `List Char`. -/
def splitOnDot : List Char → List (List Char)
  | [] => [[]]
  | c :: cs =>
    if c = '.' then [] :: splitOnDot cs
    else
      match splitOnDot cs with
      | [] => [[c]]
      | p :: ps => (c :: p) :: ps

/-- Model of Go `strings.TrimSuffix(s, suffix)`: drops the suffix when present,
otherwise returns the string unchanged. -/
def trimSuffix (s suffix' : List Char) : List Char :=
  if suffix'.isSuffixOf s then s.take (s.length - suffix'.length) else s

/-- `parseFileName` from `common.go`: splits on `"."`, takes the last chunk as
the extension and trims `"." ++ ext` as a suffix to obtain the base. -/
def parseFileName (text : List Char) : List Char × List Char :=
  let parts := splitOnDot text
  let ret := parts.getLastD []
  let file := trimSuffix text ('.' :: ret)
  (file, ret)

theorem splitOnDot_ne_nil (l : List Char) : splitOnDot l ≠ [] := by
  cases l with
  | nil => simp [splitOnDot]
  | cons c cs =>
    simp only [splitOnDot]
    split
    · simp
    · cases h : splitOnDot cs <;> simp

/-- A dot-free chunk splits into itself alone. -/
theorem splitOnDot_no_dot {l : List Char} (h : '.' ∉ l) : splitOnDot l = [l] := by
  induction l with
  | nil => rfl
  | cons c cs ih =>
    simp only [List.mem_cons] at h
    push_neg at h
    have hc : ¬ c = '.' := fun hc => h.1 hc.symm
    rw [splitOnDot, if_neg hc, ih h.2]

/-- A chunk containing a dot splits into at least two pieces. -/
theorem two_le_splitOnDot_length {l : List Char} (h : '.' ∈ l) :
    2 ≤ (splitOnDot l).length := by
  induction l with
  | nil => simp at h
  | cons c cs ih =>
    by_cases hc : c = '.'
    · rw [splitOnDot, if_pos hc]
      have := splitOnDot_ne_nil cs
      cases hs : splitOnDot cs with
      | nil => exact absurd hs this
      | cons p ps => simp
    · have hmem : '.' ∈ cs := by
        rcases List.mem_cons.mp h with h1 | h1
        · exact absurd h1.symm hc
        · exact h1
      rw [splitOnDot, if_neg hc]
      cases hs : splitOnDot cs with
      | nil => exact absurd hs (splitOnDot_ne_nil cs)
      | cons p ps =>
        have := ih hmem
        rw [hs] at this
        simpa using this

/-- `getLastD` of a nonempty list ignores the default. -/
theorem getLastD_of_ne_nil {α : Type} {l : List α} (h : l ≠ []) (a b : α) :
    l.getLastD a = l.getLastD b := by
  cases l with
  | nil => exact absurd rfl h
  | cons x xs => rw [List.getLastD_cons, List.getLastD_cons]

/-- The last chunk of the dot-split of `base ++ '.' :: ext` is `ext`
whenever `ext` itself is dot-free. -/
theorem splitOnDot_getLastD (base ext : List Char) (h : '.' ∉ ext) :
    (splitOnDot (base ++ '.' :: ext)).getLastD [] = ext := by
  induction base with
  | nil =>
    rw [List.nil_append, splitOnDot, if_pos rfl, splitOnDot_no_dot h]
    simp [List.getLastD_cons]
  | cons c cs ih =>
    by_cases hc : c = '.'
    · rw [List.cons_append, splitOnDot, if_pos hc, List.getLastD_cons]
      exact ih
    · have hmem : '.' ∈ cs ++ '.' :: ext := by simp
      rw [List.cons_append, splitOnDot, if_neg hc]
      cases hs : splitOnDot (cs ++ '.' :: ext) with
      | nil => exact absurd hs (splitOnDot_ne_nil _)
      | cons p ps =>
        have hlen : 2 ≤ (splitOnDot (cs ++ '.' :: ext)).length :=
          two_le_splitOnDot_length hmem
        rw [hs] at hlen
        have hps : ps ≠ [] := by
          cases ps with
          | nil => simp at hlen
          | cons q qs => simp
        have hlast : (p :: ps).getLastD [] = ext := by rw [← hs]; exact ih
        rw [List.getLastD_cons] at hlast ⊢
        rw [getLastD_of_ne_nil hps (c :: p) p, hlast]

/-- `trimSuffix` removes an actual suffix. -/
theorem trimSuffix_append (base suf : List Char) :
    trimSuffix (base ++ suf) suf = base := by
  have hsuf : suf.isSuffixOf (base ++ suf) = true :=
    List.isSuffixOf_iff_suffix.mpr (List.suffix_append base suf)
  rw [trimSuffix, if_pos hsuf]
  have : (base ++ suf).length - suf.length = base.length := by
    simp
  rw [this, List.take_left]

/-- A strictly longer list is never a suffix, so `trimSuffix` is the identity. -/
theorem trimSuffix_of_longer (l suf : List Char) (h : l.length < suf.length) :
    trimSuffix l suf = l := by
  rw [trimSuffix]
  split
  · next hs =>
    have := (List.isSuffixOf_iff_suffix.mp hs).length_le
    omega
  · rfl

/-- Unfolding equation for `parseFileName`. -/
theorem parseFileName_eq (text : List Char) :
    parseFileName text =
      (trimSuffix text ('.' :: (splitOnDot text).getLastD []),
       (splitOnDot text).getLastD []) := rfl

/-- **C10** (implicit; `common.go` `parseFileName`).
For an input containing a dot — written as `base ++ '.' :: ext` with `ext`
dot-free, which is exactly the decomposition at the *last* dot — the
function returns the text before the last dot as the base and the text
after the last dot as the extension, so that `base ++ "." ++ ext` is the
input.  Every input containing a dot admits such a decomposition.  An
input with no dot is returned whole as both base and extension. -/
theorem parseFileName_spec :
    (∀ base ext : List Char, '.' ∉ ext →
      parseFileName (base ++ '.' :: ext) = (base, ext) ∧
      base ++ '.' :: ext = base ++ ['.'] ++ ext) ∧
    (∀ l : List Char, '.' ∈ l →
      ∃ base ext, l = base ++ '.' :: ext ∧ '.' ∉ ext) ∧
    (∀ l : List Char, '.' ∉ l → parseFileName l = (l, l)) := by
  refine ⟨fun base ext h => ?_, fun l h => ?_, fun l h => ?_⟩
  · constructor
    · rw [parseFileName_eq, splitOnDot_getLastD base ext h]
      have hre : base ++ '.' :: ext = base ++ ('.' :: ext) := rfl
      rw [hre, trimSuffix_append base ('.' :: ext)]
    · simp
  · induction l with
    | nil => simp at h
    | cons c cs ih =>
      by_cases hcs : '.' ∈ cs
      · obtain ⟨base, ext, heq, hext⟩ := ih hcs
        exact ⟨c :: base, ext, by rw [heq]; rfl, hext⟩
      · have hc : c = '.' := by
          rcases List.mem_cons.mp h with h1 | h1
          · exact h1.symm
          · exact absurd h1 hcs
        exact ⟨[], cs, by rw [hc]; rfl, hcs⟩
  · rw [parseFileName_eq, splitOnDot_no_dot h]
    simp only [List.getLastD_cons, List.getLastD_nil]
    rw [trimSuffix_of_longer l ('.' :: l) (by simp)]

/-- Witness for C10 at concrete inputs `"t.ibd"` and `"abc"`. -/
theorem parseFileName_spec_witness :
    parseFileName ['t', '.', 'i', 'b', 'd'] = (['t'], ['i', 'b', 'd']) ∧
    parseFileName ['a', 'b', 'c'] = (['a', 'b', 'c'], ['a', 'b', 'c']) :=
  ⟨(parseFileName_spec.1 ['t'] ['i', 'b', 'd'] (by decide)).1,
   parseFileName_spec.2.2 ['a', 'b', 'c'] (by decide)⟩

/-! ### Observable actions

Side effects of the client and server are embedded as traces over a single
inductive action type.  Staged/final data files are modelled structurally
by `TFile` (schema, table, extension, staged?) instead of concatenated
path strings, so that distinctness of paths is decidable. -/

/-- A data file in the MySQL data directory.  `staged = true` is the
`.trite`-suffixed staging name, `staged = false` the final name. -/
structure TFile where
  schema : String
  table : String
  ext : String
  staged : Bool
  deriving DecidableEq, Repr

inductive Action where
  | sendStatus (fqTable status : String)
  | beginTx
  | setFKChecks
  | setLockTimeout
  | useSchema (s : String)
  | fetchCreate (t : String)
  | execDropTable (t : String)
  | execCreateTable (t : String)
  | execDiscard (t : String)
  | execLock (t : String)
  | renameFile (f : TFile)
  | execImportTablespace (t : String)
  | execAnalyze (t : String)
  | execUnlockTables
  | commitTx
  | rollbackTx
  | removeFile (f : TFile)
  | logAppend
  | incErr
  | wgApplyDone
  | wgDownloadDone
  | skipLog (t : String)
  | exitProc (code : Nat)
  | headRequest (f : String)
  | getRequest (f : String)
  | getFile (f : TFile)
  | createFile (f : TFile)
  | execDropObject (objType name : String)
  | setSessionVar (v : String)
  | execCreateObject (objType name : String)
  | printLine (s : String)
  | listen (port : String)
  | waitDownload
  | waitApply
  deriving DecidableEq, Repr

/-- Effect of one action on the disk (modelled as the list of files
present): create appends, remove deletes, rename of a staged file
replaces it by its final name; all other actions leave the disk alone. -/
def diskStep (d : List TFile) (a : Action) : List TFile :=
  match a with
  | Action.createFile f => d ++ [f]
  | Action.removeFile f => d.filter (· ≠ f)
  | Action.renameFile f => (d.filter (· ≠ f)) ++ [{ f with staged := false }]
  | _ => d

/-- Disk contents after running a trace. -/
def runDisk (t : List Action) (d : List TFile) : List TFile := t.foldl diskStep d

/-! ### reader.go (server): verifyBackup and startServer

The backup directory tree is modelled by `EntryF`, a directory listing in
traversal order whose entries are plain files or subdirectories. -/

inductive EntryF where
  | nilF : EntryF
  | consFile (name : List Char) (rest : EntryF) : EntryF
  | consDir (name : List Char) (contents : EntryF) (rest : EntryF) : EntryF
  deriving DecidableEq, Repr

/-- `verifyBackup` from `reader.go`: walks the listing; a subdirectory is
recursed into first (returning `true` early if the recursion found an exp
file), a plain file whose `parseFileName` extension is `"exp"` sets the
flag and breaks; otherwise the incoming flag is returned. -/
def verifyBackup : EntryF → Bool → Bool
  | EntryF.nilF, flag => flag
  | EntryF.consFile name rest, flag =>
      if (parseFileName name).2 = ['e', 'x', 'p'] then true
      else verifyBackup rest flag
  | EntryF.consDir _ contents rest, flag =>
      if verifyBackup contents flag = true then true
      else verifyBackup rest flag

/-- Pure characterization: some file in the tree has `parseFileName`
extension `"exp"` (i.e. its name ends in `".exp"` or is the dotless
name `"exp"`). -/
def hasExpExt : EntryF → Bool
  | EntryF.nilF => false
  | EntryF.consFile name rest =>
      decide ((parseFileName name).2 = ['e', 'x', 'p']) || hasExpExt rest
  | EntryF.consDir _ contents rest => hasExpExt contents || hasExpExt rest

/-- The claim's own predicate, following the spec wording "contains at
least one `.exp` file": some plain file whose name ends in `".exp"`. -/
def specHasDotExpFile : EntryF → Bool
  | EntryF.nilF => false
  | EntryF.consFile name rest =>
      List.isSuffixOf ['.', 'e', 'x', 'p'] name || specHasDotExpFile rest
  | EntryF.consDir _ contents rest =>
      specHasDotExpFile contents || specHasDotExpFile rest

/-- `startServer` from `reader.go`, as the trace of its observable actions:
verify the backup, and either warn and exit 1, or announce and listen. -/
def startServer (tree : EntryF) (port : String) : List Action :=
  if verifyBackup tree false = false then
    [Action.printLine "It appears that --export has not be run on your backups!",
     Action.exitProc 1]
  else
    [Action.printLine "Starting server listening on port", Action.listen port]

theorem verifyBackup_eq_or (f : EntryF) :
    ∀ flag, verifyBackup f flag = (flag || hasExpExt f) := by
  induction f with
  | nilF => intro flag; simp [verifyBackup, hasExpExt]
  | consFile name rest ih =>
    intro flag
    by_cases h : (parseFileName name).2 = ['e', 'x', 'p'] <;>
      simp [verifyBackup, hasExpExt, h, ih flag]
  | consDir name contents rest ih1 ih2 =>
    intro flag
    simp only [verifyBackup, hasExpExt, ih1 flag, ih2 flag]
    cases flag <;> cases h : hasExpExt contents <;> simp

/-- **C8, counterexample**: a backup tree whose only entry is a plain file
literally named `exp` (no dot).  `verifyBackup` accepts it although the
tree contains no `.exp` file, so the claimed "if and only if" fails. -/
theorem verifyBackup_counterexample :
    verifyBackup (EntryF.consFile ['e', 'x', 'p'] EntryF.nilF) false = true ∧
    specHasDotExpFile (EntryF.consFile ['e', 'x', 'p'] EntryF.nilF) = false := by
  constructor <;> decide

/-- **C8, amended** (`reader.go` `startServer`/`verifyBackup`).
`verifyBackup` returns true iff the backup tree contains at least one
plain file whose `parseFileName` extension is `"exp"` — that is, a name
ending in `".exp"`, or the dotless name `"exp"` which is also (perhaps
unintentionally) accepted.  When it returns false the server prints the
preparation warning and exits with status 1, and no listen action occurs. -/
theorem verifyBackup_spec (tree : EntryF) (port : String) :
    (verifyBackup tree false = true ↔ hasExpExt tree = true) ∧
    (verifyBackup tree false = false →
      startServer tree port =
        [Action.printLine "It appears that --export has not be run on your backups!",
         Action.exitProc 1] ∧
      ∀ p, Action.listen p ∉ startServer tree port) := by
  constructor
  · rw [verifyBackup_eq_or tree false]
    simp
  · intro h
    constructor
    · rw [startServer, if_pos h]
    · intro p
      rw [startServer, if_pos h]
      simp

/-- Witness for C8 at a concrete tree with no exp file. -/
theorem verifyBackup_spec_witness :
    verifyBackup (EntryF.consFile ['a', '.', 't', 'x', 't'] EntryF.nilF) false = false ∧
    startServer (EntryF.consFile ['a', '.', 't', 'x', 't'] EntryF.nilF) "12000" =
      [Action.printLine "It appears that --export has not be run on your backups!",
       Action.exitProc 1] :=
  ⟨by decide,
   ((verifyBackup_spec (EntryF.consFile ['a', '.', 't', 'x', 't'] EntryF.nilF)
      "12000").2 (by decide)).1⟩

/-! ### draw.go: drawTerminalf -/

/-- `strings.Repeat(" ", n)`. -/
def spaces (n : Nat) : String := String.mk (List.replicate n ' ')

/-- One invocation of the closure returned by `drawTerminalf`.  The closure
state is the captured `maxLength`; the result is the string written to the
terminal writer together with the new `maxLength`. -/
def drawTerminalStep (f : String → Int → Int → String) (maxLength : Nat)
    (p : String) (progress total : Int) : String × Nat :=
  if progress = -1 ∧ total = -1 then (spaces maxLength, maxLength)
  else
    let line := f p progress total
    let line2 := if line.length < maxLength
      then line ++ spaces (maxLength - line.length)
      else line
    (line2 ++ "\r", line2.length)

/-- A sequence of invocations of the draw closure, threading `maxLength`
and concatenating the written output. -/
def drawTerminalRun (f : String → Int → Int → String) :
    Nat → List (String × Int × Int) → String × Nat
  | m, [] => ("", m)
  | m, (p, pr, t) :: rest =>
      let s := drawTerminalStep f m p pr t
      let r := drawTerminalRun f s.2 rest
      (s.1 ++ r.1, r.2)

theorem spaces_length (n : Nat) : (spaces n).length = n := by
  simp [spaces, String.length]

theorem drawTerminalStep_le (f : String → Int → Int → String) (m : Nat)
    (p : String) (pr t : Int) : m ≤ (drawTerminalStep f m p pr t).2 := by
  rw [drawTerminalStep]
  split
  · exact le_refl m
  · simp only []
    split
    · next h =>
      simp only [String.length_append, spaces_length]
      omega
    · next h => omega

theorem drawTerminalRun_le (f : String → Int → Int → String) :
    ∀ (calls : List (String × Int × Int)) (m : Nat),
      m ≤ (drawTerminalRun f m calls).2 := by
  intro calls
  induction calls with
  | nil => intro m; exact le_refl m
  | cons c rest ih =>
    intro m
    obtain ⟨p, pr, t⟩ := c
    calc m ≤ (drawTerminalStep f m p pr t).2 := drawTerminalStep_le f m p pr t
    _ ≤ (drawTerminalRun f (drawTerminalStep f m p pr t).2 rest).2 := ih _
    _ = (drawTerminalRun f m ((p, pr, t) :: rest)).2 := rfl

/-- **C9** (`draw.go` `drawTerminalf`).
The draw closure: on the sentinel `(-1, -1)` it writes exactly
`maxLength` spaces (blanking the line) and keeps its state; on any other
input it writes the formatted line padded with spaces to the maximum
length ever drawn (the new state `max maxLength line.length`) followed by
a carriage return; and the tracked maximum length never decreases over
any sequence of calls. -/
theorem drawTerminalf_spec (f : String → Int → Int → String) (m : Nat)
    (p : String) (progress total : Int) :
    (progress = -1 ∧ total = -1 →
      drawTerminalStep f m p progress total = (spaces m, m)) ∧
    (¬ (progress = -1 ∧ total = -1) →
      drawTerminalStep f m p progress total =
        ((f p progress total ++ spaces (m - (f p progress total).length)) ++ "\r",
         max m (f p progress total).length)) ∧
    m ≤ (drawTerminalStep f m p progress total).2 ∧
    ∀ calls : List (String × Int × Int), m ≤ (drawTerminalRun f m calls).2 := by
  refine ⟨fun h => ?_, fun h => ?_, drawTerminalStep_le f m p progress total,
    fun calls => drawTerminalRun_le f calls m⟩
  · rw [drawTerminalStep, if_pos h]
  · rw [drawTerminalStep, if_neg h]
    by_cases hlen : (f p progress total).length < m
    · simp only [if_pos hlen]
      rw [Prod.mk.injEq]
      refine ⟨rfl, ?_⟩
      simp only [String.length_append, spaces_length]
      omega
    · simp only [if_neg hlen]
      have hms : m - (f p progress total).length = 0 := by omega
      rw [hms]
      rw [Prod.mk.injEq]
      constructor
      · have : f p progress total ++ spaces 0 = f p progress total := by
          show f p progress total ++ "" = f p progress total
          simp
        rw [this]
      · show (f p progress total).length = max m (f p progress total).length
        omega

/-- Witness for C9 at concrete inputs: a sentinel call with state 3 writes
three spaces, and a call drawing a 4-character line from state 2 writes
the line plus carriage return and raises the state to 4. -/
theorem drawTerminalf_spec_witness :
    drawTerminalStep (fun p _ _ => p ++ ": 7%") 3 "x" (-1) (-1) = (spaces 3, 3) ∧
    drawTerminalStep (fun p _ _ => p ++ ": 7%") 2 "x" 7 100 =
      (("x: 7%" ++ spaces 0) ++ "\r", 5) := by
  constructor
  · exact (drawTerminalf_spec (fun p _ _ => p ++ ": 7%") 3 "x" (-1) (-1)).1
      (by constructor <;> rfl)
  · have h := (drawTerminalf_spec (fun p _ _ => p ++ ": 7%") 2 "x" 7 100).2.1
      (by intro hc; exact absurd hc.1 (by decide))
    simpa using h

/-! ### client.go: applyTables and handleApplyError

The per-table apply state machine.  A `FailSpec` is the failure oracle:
which database step fails (the first failing step triggers the error
handler and the function returns), and at which index, if any, the
staged-file rename loop fails.  The error-recorder block of
`handleApplyError` (engine-status query, processlist query, log-file
writes) is abstracted as the single `logAppend` action; everything the
claims mention is kept discrete. -/

/-- Which global apply error value was set (`errApplyDrop` ..
`errApplyUnlock` in `client.go`). -/
inductive ErrKind where
  | dropK | createK | discardK | lockK | renameK | importK | analyzeK | unlockK
  deriving DecidableEq, Repr

/-- Failure oracle for one run of `applyTables`. -/
structure FailSpec where
  dropF : Bool
  createF : Bool
  discardF : Bool
  lockF : Bool
  renameIdx : Option Nat
  importF : Bool
  analyzeF : Bool
  unlockF : Bool
  deriving DecidableEq, Repr

/-- The `switch applyErr` cleanup block of `handleApplyError`. -/
def cleanupActions (table : String) (files : List TFile) : ErrKind → List Action
  | ErrKind.dropK => files.map Action.removeFile ++ [Action.rollbackTx]
  | ErrKind.createK => files.map Action.removeFile ++ [Action.rollbackTx]
  | ErrKind.discardK =>
      files.map Action.removeFile ++ [Action.execDropTable table, Action.rollbackTx]
  | ErrKind.lockK =>
      files.map Action.removeFile ++ [Action.execDropTable table, Action.rollbackTx]
  | ErrKind.renameK =>
      files.map Action.removeFile ++
        [Action.execUnlockTables, Action.execDropTable table, Action.rollbackTx]
  | ErrKind.importK =>
      [Action.execUnlockTables, Action.execDropTable table, Action.rollbackTx]
  | ErrKind.analyzeK => [Action.execUnlockTables, Action.rollbackTx]
  | ErrKind.unlockK => [Action.rollbackTx]

/-- `handleApplyError`: log the diagnostics, run the error-specific
cleanup, bump the error counter, send `ERROR`, release the apply
wait-group. -/
def handleApplyError (fq table : String) (files : List TFile) (k : ErrKind) :
    List Action :=
  Action.logAppend :: cleanupActions table files k ++
    [Action.incErr, Action.sendStatus fq "ERROR", Action.wgApplyDone]

/-- The staged-file rename loop: renames files in order starting at index
`i`; `os.Rename` fails exactly at index `failIdx` (if in range).  Returns
the rename actions performed and whether a rename failed. -/
def renameRun : List TFile → Nat → Option Nat → List Action × Bool
  | [], _, _ => ([], false)
  | f :: rest, i, failIdx =>
      if failIdx = some i then ([], true)
      else
        let r := renameRun rest (i + 1) failIdx
        (Action.renameFile f :: r.1, r.2)

/-- `applyTables` from `client.go`: one transaction per table driving the
engine-specific state machine, handing the first failure to
`handleApplyError` (which returns without reaching the later steps). -/
def applyTables (engine schema table : String) (files : List TFile)
    (fs : FailSpec) : List Action :=
  let fq := schema ++ "." ++ table
  [Action.sendStatus fq "Applying", Action.beginTx, Action.setFKChecks,
   Action.setLockTimeout, Action.useSchema schema] ++
  (if engine = "InnoDB" then
    Action.fetchCreate table ::
    (if fs.dropF then handleApplyError fq table files ErrKind.dropK
     else Action.execDropTable table ::
      (if fs.createF then handleApplyError fq table files ErrKind.createK
       else Action.execCreateTable table ::
        (if fs.discardF then handleApplyError fq table files ErrKind.discardK
         else Action.execDiscard table ::
          (if fs.lockF then handleApplyError fq table files ErrKind.lockK
           else Action.execLock table ::
            (let r := renameRun files 0 fs.renameIdx
             r.1 ++
             (if r.2 then handleApplyError fq table files ErrKind.renameK
              else
                if fs.importF then handleApplyError fq table files ErrKind.importK
                else Action.execImportTablespace table ::
                 (if fs.analyzeF then handleApplyError fq table files ErrKind.analyzeK
                  else Action.execAnalyze table ::
                   (if fs.unlockF then handleApplyError fq table files ErrKind.unlockK
                    else [Action.execUnlockTables, Action.commitTx,
                          Action.sendStatus fq "Restored", Action.wgApplyDone]))))))))
   else if engine = "MyISAM" then
    (if fs.dropF then handleApplyError fq table files ErrKind.dropK
     else Action.execDropTable table ::
      (let r := renameRun files 0 fs.renameIdx
       r.1 ++
       (if r.2 then handleApplyError fq table files ErrKind.renameK
        else [Action.commitTx, Action.sendStatus fq "Restored",
              Action.wgApplyDone])))
   else
    [Action.printLine "skip unsupported engine",
     Action.sendStatus fq "Restored", Action.wgApplyDone])

/-- The rename loop with no failing index renames every staged file. -/
theorem renameRun_none (files : List TFile) :
    ∀ i, renameRun files i none = (files.map Action.renameFile, false) := by
  induction files with
  | nil => intro i; rfl
  | cons f rest ih =>
    intro i
    rw [renameRun, if_neg (by simp)]
    rw [ih (i + 1)]
    rfl

/-- The rename loop failing at index `|pre|` performs exactly the renames
of `pre` and reports failure. -/
theorem renameRun_fail (pre : List TFile) (x : TFile) (post : List TFile) :
    ∀ i, renameRun (pre ++ x :: post) i (some (i + pre.length)) =
      (pre.map Action.renameFile, true) := by
  induction pre with
  | nil =>
    intro i
    rw [List.nil_append, renameRun, if_pos (by simp)]
    rfl
  | cons f rest ih =>
    intro i
    rw [List.cons_append, renameRun,
      if_neg (by simp only [Option.some.injEq, List.length_cons]; omega)]
    have : i + (f :: rest).length = (i + 1) + rest.length := by
      simp [List.length_cons]; omega
    rw [this, ih (i + 1)]
    rfl

/-- Every action emitted by the rename loop is a `renameFile`. -/
theorem renameRun_all_renames (files : List TFile) :
    ∀ i failIdx a, a ∈ (renameRun files i failIdx).1 →
      ∃ f, a = Action.renameFile f := by
  induction files with
  | nil => intro i failIdx a ha; simp [renameRun] at ha
  | cons f rest ih =>
    intro i failIdx a ha
    rw [renameRun] at ha
    by_cases h : failIdx = some i
    · rw [if_pos h] at ha; simp at ha
    · rw [if_neg h] at ha
      simp only [List.mem_cons] at ha
      rcases ha with ha | ha
      · exact ⟨f, ha⟩
      · exact ih (i + 1) failIdx a ha

/-- **C1** (`client.go` `applyTables`/`handleApplyError`).
For an InnoDB table whose apply sequence first fails at a given step, the
engine runs exactly the claimed cleanup set for that step: Drop/Create
failures remove the staged files and roll back; Discard/Lock failures
remove the staged files, drop the table and roll back; a Rename failure
removes the (remaining) staged files, unlocks, drops the table and rolls
back (the removes target every staged path; those already renamed away no
longer exist under the staged name); an Import failure unlocks, drops the
table and rolls back; an Analyze failure unlocks and rolls back without
dropping; an Unlock failure only rolls back.  Each conjunct gives the
entire trace of the run. -/
theorem applyTables_cleanup_sets (schema table : String) :
    (∀ (files : List TFile) (b2 b3 b4 : Bool) (ri : Option Nat) (b5 b6 b7 : Bool),
      applyTables "InnoDB" schema table files ⟨true, b2, b3, b4, ri, b5, b6, b7⟩ =
        [Action.sendStatus (schema ++ "." ++ table) "Applying", Action.beginTx,
         Action.setFKChecks, Action.setLockTimeout, Action.useSchema schema,
         Action.fetchCreate table, Action.logAppend] ++
        files.map Action.removeFile ++
        [Action.rollbackTx, Action.incErr,
         Action.sendStatus (schema ++ "." ++ table) "ERROR", Action.wgApplyDone]) ∧
    (∀ (files : List TFile) (b3 b4 : Bool) (ri : Option Nat) (b5 b6 b7 : Bool),
      applyTables "InnoDB" schema table files ⟨false, true, b3, b4, ri, b5, b6, b7⟩ =
        [Action.sendStatus (schema ++ "." ++ table) "Applying", Action.beginTx,
         Action.setFKChecks, Action.setLockTimeout, Action.useSchema schema,
         Action.fetchCreate table, Action.execDropTable table, Action.logAppend] ++
        files.map Action.removeFile ++
        [Action.rollbackTx, Action.incErr,
         Action.sendStatus (schema ++ "." ++ table) "ERROR", Action.wgApplyDone]) ∧
    (∀ (files : List TFile) (b4 : Bool) (ri : Option Nat) (b5 b6 b7 : Bool),
      applyTables "InnoDB" schema table files ⟨false, false, true, b4, ri, b5, b6, b7⟩ =
        [Action.sendStatus (schema ++ "." ++ table) "Applying", Action.beginTx,
         Action.setFKChecks, Action.setLockTimeout, Action.useSchema schema,
         Action.fetchCreate table, Action.execDropTable table,
         Action.execCreateTable table, Action.logAppend] ++
        files.map Action.removeFile ++
        [Action.execDropTable table, Action.rollbackTx, Action.incErr,
         Action.sendStatus (schema ++ "." ++ table) "ERROR", Action.wgApplyDone]) ∧
    (∀ (files : List TFile) (ri : Option Nat) (b5 b6 b7 : Bool),
      applyTables "InnoDB" schema table files ⟨false, false, false, true, ri, b5, b6, b7⟩ =
        [Action.sendStatus (schema ++ "." ++ table) "Applying", Action.beginTx,
         Action.setFKChecks, Action.setLockTimeout, Action.useSchema schema,
         Action.fetchCreate table, Action.execDropTable table,
         Action.execCreateTable table, Action.execDiscard table, Action.logAppend] ++
        files.map Action.removeFile ++
        [Action.execDropTable table, Action.rollbackTx, Action.incErr,
         Action.sendStatus (schema ++ "." ++ table) "ERROR", Action.wgApplyDone]) ∧
    (∀ (pre : List TFile) (x : TFile) (post : List TFile) (b5 b6 b7 : Bool),
      applyTables "InnoDB" schema table (pre ++ x :: post)
          ⟨false, false, false, false, some pre.length, b5, b6, b7⟩ =
        [Action.sendStatus (schema ++ "." ++ table) "Applying", Action.beginTx,
         Action.setFKChecks, Action.setLockTimeout, Action.useSchema schema,
         Action.fetchCreate table, Action.execDropTable table,
         Action.execCreateTable table, Action.execDiscard table,
         Action.execLock table] ++
        pre.map Action.renameFile ++ [Action.logAppend] ++
        (pre ++ x :: post).map Action.removeFile ++
        [Action.execUnlockTables, Action.execDropTable table, Action.rollbackTx,
         Action.incErr, Action.sendStatus (schema ++ "." ++ table) "ERROR",
         Action.wgApplyDone]) ∧
    (∀ (files : List TFile) (b6 b7 : Bool),
      applyTables "InnoDB" schema table files
          ⟨false, false, false, false, none, true, b6, b7⟩ =
        [Action.sendStatus (schema ++ "." ++ table) "Applying", Action.beginTx,
         Action.setFKChecks, Action.setLockTimeout, Action.useSchema schema,
         Action.fetchCreate table, Action.execDropTable table,
         Action.execCreateTable table, Action.execDiscard table,
         Action.execLock table] ++
        files.map Action.renameFile ++
        [Action.logAppend, Action.execUnlockTables, Action.execDropTable table,
         Action.rollbackTx, Action.incErr,
         Action.sendStatus (schema ++ "." ++ table) "ERROR", Action.wgApplyDone]) ∧
    (∀ (files : List TFile) (b7 : Bool),
      applyTables "InnoDB" schema table files
          ⟨false, false, false, false, none, false, true, b7⟩ =
        [Action.sendStatus (schema ++ "." ++ table) "Applying", Action.beginTx,
         Action.setFKChecks, Action.setLockTimeout, Action.useSchema schema,
         Action.fetchCreate table, Action.execDropTable table,
         Action.execCreateTable table, Action.execDiscard table,
         Action.execLock table] ++
        files.map Action.renameFile ++
        [Action.execImportTablespace table, Action.logAppend,
         Action.execUnlockTables, Action.rollbackTx, Action.incErr,
         Action.sendStatus (schema ++ "." ++ table) "ERROR", Action.wgApplyDone]) ∧
    (∀ (files : List TFile),
      applyTables "InnoDB" schema table files
          ⟨false, false, false, false, none, false, false, true⟩ =
        [Action.sendStatus (schema ++ "." ++ table) "Applying", Action.beginTx,
         Action.setFKChecks, Action.setLockTimeout, Action.useSchema schema,
         Action.fetchCreate table, Action.execDropTable table,
         Action.execCreateTable table, Action.execDiscard table,
         Action.execLock table] ++
        files.map Action.renameFile ++
        [Action.execImportTablespace table, Action.execAnalyze table,
         Action.logAppend, Action.rollbackTx, Action.incErr,
         Action.sendStatus (schema ++ "." ++ table) "ERROR", Action.wgApplyDone]) := by
  refine ⟨fun files b2 b3 b4 ri b5 b6 b7 => ?_, fun files b3 b4 ri b5 b6 b7 => ?_,
    fun files b4 ri b5 b6 b7 => ?_, fun files ri b5 b6 b7 => ?_,
    fun pre x post b5 b6 b7 => ?_, fun files b6 b7 => ?_,
    fun files b7 => ?_, fun files => ?_⟩
  · simp [applyTables, handleApplyError, cleanupActions]
  · simp [applyTables, handleApplyError, cleanupActions]
  · simp [applyTables, handleApplyError, cleanupActions]
  · simp [applyTables, handleApplyError, cleanupActions]
  · have hr := renameRun_fail pre x post 0
    rw [Nat.zero_add] at hr
    simp [applyTables, handleApplyError, cleanupActions, hr]
  · simp [applyTables, handleApplyError, cleanupActions, renameRun_none]
  · simp [applyTables, handleApplyError, cleanupActions, renameRun_none]
  · simp [applyTables, handleApplyError, cleanupActions, renameRun_none]

/-! Helper lemmas for trace-ordering arguments. -/

theorem not_mem_of_eq_append_cons {α : Type} {x : α} {l a b : List α}
    (h : x ∉ l) (heq : l = a ++ x :: b) : False :=
  h (heq ▸ List.mem_append.mpr (Or.inr (List.mem_cons_self x b)))

/-- Splitting a list at an element that occurs exactly once is unique. -/
theorem append_cons_eq_split {α : Type} {x : α} :
    ∀ (p : List α) {s a b : List α}, x ∉ p → x ∉ s →
      p ++ x :: s = a ++ x :: b → a = p ∧ b = s := by
  intro p
  induction p with
  | nil =>
    intro s a b _ hs h
    cases a with
    | nil =>
      rw [List.nil_append, List.nil_append] at h
      injection h with _ h2
      exact ⟨rfl, h2.symm⟩
    | cons y a' =>
      rw [List.nil_append, List.cons_append] at h
      injection h with h1 h2
      exact absurd (h2 ▸ List.mem_append.mpr
        (Or.inr (List.mem_cons_self x b))) hs
  | cons z p' ih =>
    intro s a b hp hs h
    cases a with
    | nil =>
      rw [List.cons_append, List.nil_append] at h
      injection h with h1 _
      exact absurd (h1 ▸ List.mem_cons_self z p') hp
    | cons y a' =>
      rw [List.cons_append, List.cons_append] at h
      injection h with h1 h2
      have hp' : x ∉ p' := fun hm => hp (List.mem_cons_of_mem z hm)
      obtain ⟨ha, hb⟩ := ih hp' hs h2
      exact ⟨by rw [ha, h1], hb⟩

theorem rollback_mem_cleanup (table : String) (files : List TFile) (k : ErrKind) :
    Action.rollbackTx ∈ cleanupActions table files k := by
  cases k <;> simp [cleanupActions]

theorem sendStatus_not_mem_cleanup (fq st table : String) (files : List TFile)
    (k : ErrKind) : Action.sendStatus fq st ∉ cleanupActions table files k := by
  cases k <;> simp [cleanupActions]

/-- The error handler decomposed around its `ERROR` send. -/
theorem handleApplyError_decomp (fq table : String) (files : List TFile)
    (k : ErrKind) :
    handleApplyError fq table files k =
      (Action.logAppend :: cleanupActions table files k ++ [Action.incErr]) ++
        Action.sendStatus fq "ERROR" :: [Action.wgApplyDone] := by
  simp [handleApplyError]

theorem restored_not_mem_handler (fq table : String) (files : List TFile)
    (k : ErrKind) :
    Action.sendStatus fq "Restored" ∉ handleApplyError fq table files k := by
  rw [handleApplyError]
  intro h
  rcases List.mem_cons.mp h with h1 | h1
  · exact Action.noConfusion h1
  · rcases List.mem_append.mp h1 with h2 | h2
    · exact sendStatus_not_mem_cleanup fq "Restored" table files k h2
    · simp at h2

/-- Trace shape of `applyTables` for the two real engines: either some
step failed and the trace is a send-free prefix followed by the error
handler, or the run succeeded and the trace is a send-free prefix followed
by commit, `Restored`, wait-group release. -/
theorem applyTables_shape (engine schema table : String) (files : List TFile)
    (fs : FailSpec) (heng : engine = "InnoDB" ∨ engine = "MyISAM") :
    (∃ P k, applyTables engine schema table files fs =
        P ++ handleApplyError (schema ++ "." ++ table) table files k ∧
        Action.sendStatus (schema ++ "." ++ table) "Restored" ∉ P ∧
        Action.sendStatus (schema ++ "." ++ table) "ERROR" ∉ P) ∨
    (∃ P, applyTables engine schema table files fs =
        P ++ [Action.commitTx,
              Action.sendStatus (schema ++ "." ++ table) "Restored",
              Action.wgApplyDone] ∧
        Action.sendStatus (schema ++ "." ++ table) "Restored" ∉ P ∧
        Action.sendStatus (schema ++ "." ++ table) "ERROR" ∉ P) := by
  have hren := renameRun_all_renames files 0 fs.renameIdx
  rcases heng with heng | heng <;> subst heng
  · by_cases hd : fs.dropF
    · refine Or.inl ⟨[Action.sendStatus (schema ++ "." ++ table) "Applying",
          Action.beginTx, Action.setFKChecks, Action.setLockTimeout,
          Action.useSchema schema, Action.fetchCreate table], ErrKind.dropK, by simp [applyTables, hd], ?_, ?_⟩ <;> simp
    · by_cases hc : fs.createF
      · refine Or.inl ⟨[Action.sendStatus (schema ++ "." ++ table) "Applying",
          Action.beginTx, Action.setFKChecks, Action.setLockTimeout,
          Action.useSchema schema, Action.fetchCreate table] ++ [Action.execDropTable table],
            ErrKind.createK, by simp [applyTables, hd, hc], ?_, ?_⟩ <;>
          simp
      · by_cases hdis : fs.discardF
        · refine Or.inl ⟨[Action.sendStatus (schema ++ "." ++ table) "Applying",
          Action.beginTx, Action.setFKChecks, Action.setLockTimeout,
          Action.useSchema schema, Action.fetchCreate table] ++ [Action.execDropTable table, Action.execCreateTable table],
            ErrKind.discardK,
            by simp [applyTables, hd, hc, hdis], ?_, ?_⟩ <;> simp
        · by_cases hl : fs.lockF
          · refine Or.inl ⟨[Action.sendStatus (schema ++ "." ++ table) "Applying",
          Action.beginTx, Action.setFKChecks, Action.setLockTimeout,
          Action.useSchema schema, Action.fetchCreate table] ++ [Action.execDropTable table, Action.execCreateTable table,
              Action.execDiscard table],
              ErrKind.lockK,
              by simp [applyTables, hd, hc, hdis, hl], ?_, ?_⟩ <;> simp
          · by_cases hr2 : (renameRun files 0 fs.renameIdx).2
            · refine Or.inl ⟨[Action.sendStatus (schema ++ "." ++ table) "Applying",
                Action.beginTx, Action.setFKChecks, Action.setLockTimeout,
                Action.useSchema schema, Action.fetchCreate table,
                Action.execDropTable table, Action.execCreateTable table,
                Action.execDiscard table, Action.execLock table] ++
                (renameRun files 0 fs.renameIdx).1, ErrKind.renameK,
                by simp [applyTables, hd, hc, hdis, hl, hr2], ?_, ?_⟩ <;>
              · intro hmem
                rcases List.mem_append.mp hmem with h1 | h1
                · simp at h1
                · obtain ⟨f, hf⟩ := hren _ h1
                  exact Action.noConfusion hf
            · by_cases hi : fs.importF
              · refine Or.inl ⟨[Action.sendStatus (schema ++ "." ++ table) "Applying",
                  Action.beginTx, Action.setFKChecks, Action.setLockTimeout,
                  Action.useSchema schema, Action.fetchCreate table,
                  Action.execDropTable table, Action.execCreateTable table,
                  Action.execDiscard table, Action.execLock table] ++
                  (renameRun files 0 fs.renameIdx).1, ErrKind.importK,
                  by simp [applyTables, hd, hc, hdis, hl, hr2, hi], ?_, ?_⟩ <;>
                · intro hmem
                  rcases List.mem_append.mp hmem with h1 | h1
                  · simp at h1
                  · obtain ⟨f, hf⟩ := hren _ h1
                    exact Action.noConfusion hf
              · by_cases han : fs.analyzeF
                · refine Or.inl ⟨([Action.sendStatus (schema ++ "." ++ table) "Applying",
                    Action.beginTx, Action.setFKChecks, Action.setLockTimeout,
                    Action.useSchema schema, Action.fetchCreate table,
                    Action.execDropTable table, Action.execCreateTable table,
                    Action.execDiscard table, Action.execLock table] ++
                    (renameRun files 0 fs.renameIdx).1) ++
                    [Action.execImportTablespace table], ErrKind.analyzeK,
                    by simp [applyTables, hd, hc, hdis, hl, hr2, hi, han], ?_, ?_⟩ <;>
                  · intro hmem
                    rcases List.mem_append.mp hmem with h1 | h1
                    · rcases List.mem_append.mp h1 with h2 | h2
                      · simp at h2
                      · obtain ⟨f, hf⟩ := hren _ h2
                        exact Action.noConfusion hf
                    · simp at h1
                · by_cases hu : fs.unlockF
                  · refine Or.inl ⟨([Action.sendStatus (schema ++ "." ++ table) "Applying",
                      Action.beginTx, Action.setFKChecks, Action.setLockTimeout,
                      Action.useSchema schema, Action.fetchCreate table,
                      Action.execDropTable table, Action.execCreateTable table,
                      Action.execDiscard table, Action.execLock table] ++
                      (renameRun files 0 fs.renameIdx).1) ++
                      [Action.execImportTablespace table, Action.execAnalyze table],
                      ErrKind.unlockK,
                      by simp [applyTables, hd, hc, hdis, hl, hr2, hi, han, hu],
                      ?_, ?_⟩ <;>
                    · intro hmem
                      rcases List.mem_append.mp hmem with h1 | h1
                      · rcases List.mem_append.mp h1 with h2 | h2
                        · simp at h2
                        · obtain ⟨f, hf⟩ := hren _ h2
                          exact Action.noConfusion hf
                      · simp at h1
                  · refine Or.inr ⟨([Action.sendStatus (schema ++ "." ++ table) "Applying",
                      Action.beginTx, Action.setFKChecks, Action.setLockTimeout,
                      Action.useSchema schema, Action.fetchCreate table,
                      Action.execDropTable table, Action.execCreateTable table,
                      Action.execDiscard table, Action.execLock table] ++
                      (renameRun files 0 fs.renameIdx).1) ++
                      [Action.execImportTablespace table, Action.execAnalyze table,
                       Action.execUnlockTables],
                      by simp [applyTables, hd, hc, hdis, hl, hr2, hi, han, hu],
                      ?_, ?_⟩ <;>
                    · intro hmem
                      rcases List.mem_append.mp hmem with h1 | h1
                      · rcases List.mem_append.mp h1 with h2 | h2
                        · simp at h2
                        · obtain ⟨f, hf⟩ := hren _ h2
                          exact Action.noConfusion hf
                      · simp at h1
  · by_cases hd : fs.dropF
    · refine Or.inl ⟨[Action.sendStatus (schema ++ "." ++ table) "Applying",
          Action.beginTx, Action.setFKChecks, Action.setLockTimeout,
          Action.useSchema schema],
        ErrKind.dropK, by simp [applyTables, hd], ?_, ?_⟩ <;> simp
    · by_cases hr2 : (renameRun files 0 fs.renameIdx).2
      · refine Or.inl ⟨[Action.sendStatus (schema ++ "." ++ table) "Applying",
          Action.beginTx, Action.setFKChecks, Action.setLockTimeout,
          Action.useSchema schema, Action.execDropTable table] ++
          (renameRun files 0 fs.renameIdx).1, ErrKind.renameK,
          by simp [applyTables, hd, hr2], ?_, ?_⟩ <;>
        · intro hmem
          rcases List.mem_append.mp hmem with h1 | h1
          · simp at h1
          · obtain ⟨f, hf⟩ := hren _ h1
            exact Action.noConfusion hf
      · refine Or.inr ⟨[Action.sendStatus (schema ++ "." ++ table) "Applying",
          Action.beginTx, Action.setFKChecks, Action.setLockTimeout,
          Action.useSchema schema, Action.execDropTable table] ++
          (renameRun files 0 fs.renameIdx).1,
          by simp [applyTables, hd, hr2], ?_, ?_⟩ <;>
        · intro hmem
          rcases List.mem_append.mp hmem with h1 | h1
          · simp at h1
          · obtain ⟨f, hf⟩ := hren _ h1
            exact Action.noConfusion hf

/-- **C2** (`client.go` `applyTables`/`handleApplyError`).
For every table (the engines actually reachable from `downloadTable` are
InnoDB and MyISAM), the `Restored` status is sent only after the
transaction commit appears earlier in the trace, and the `ERROR` status is
sent only after the step-specific cleanup and the error-log append have
completed: the only action after the `ERROR` send is the wait-group
release, and the log append, the rollback, every staged-file removal,
every drop statement and every unlock statement of the run all precede
the send. -/
theorem applyTables_status_order (engine schema table : String)
    (files : List TFile) (fs : FailSpec)
    (heng : engine = "InnoDB" ∨ engine = "MyISAM") :
    (∀ a b, applyTables engine schema table files fs =
        a ++ Action.sendStatus (schema ++ "." ++ table) "Restored" :: b →
        Action.commitTx ∈ a) ∧
    (∀ a b, applyTables engine schema table files fs =
        a ++ Action.sendStatus (schema ++ "." ++ table) "ERROR" :: b →
        b = [Action.wgApplyDone] ∧
        Action.logAppend ∈ a ∧ Action.rollbackTx ∈ a ∧
        (∀ f, Action.removeFile f ∈ applyTables engine schema table files fs →
          Action.removeFile f ∈ a) ∧
        (∀ t, Action.execDropTable t ∈ applyTables engine schema table files fs →
          Action.execDropTable t ∈ a) ∧
        (Action.execUnlockTables ∈ applyTables engine schema table files fs →
          Action.execUnlockTables ∈ a)) := by
  obtain hsh := applyTables_shape engine schema table files fs heng
  constructor
  · intro a b heq
    rcases hsh with ⟨P, k, hP, hR, _⟩ | ⟨P, hP, hR, _⟩
    · exfalso
      rw [hP] at heq
      have hnm : Action.sendStatus (schema ++ "." ++ table) "Restored" ∉
          P ++ handleApplyError (schema ++ "." ++ table) table files k :=
        fun hm => (List.mem_append.mp hm).elim hR
          (restored_not_mem_handler (schema ++ "." ++ table) table files k)
      exact not_mem_of_eq_append_cons hnm heq
    · rw [hP] at heq
      have hre : P ++ [Action.commitTx,
            Action.sendStatus (schema ++ "." ++ table) "Restored",
            Action.wgApplyDone] =
          (P ++ [Action.commitTx]) ++
            Action.sendStatus (schema ++ "." ++ table) "Restored" ::
              [Action.wgApplyDone] := by simp
      rw [hre] at heq
      have hnp : Action.sendStatus (schema ++ "." ++ table) "Restored" ∉
          P ++ [Action.commitTx] := by
        intro hm
        rcases List.mem_append.mp hm with h | h
        · exact hR h
        · simp at h
      have hns : Action.sendStatus (schema ++ "." ++ table) "Restored" ∉
          [Action.wgApplyDone] := by simp
      obtain ⟨ha, _⟩ := append_cons_eq_split (P ++ [Action.commitTx]) hnp hns heq
      rw [ha]
      simp
  · intro a b heq
    rcases hsh with ⟨P, k, hP, _, hE⟩ | ⟨P, hP, _, hE⟩
    · have htr : applyTables engine schema table files fs =
          (P ++ (Action.logAppend :: cleanupActions table files k ++
            [Action.incErr])) ++
            Action.sendStatus (schema ++ "." ++ table) "ERROR" ::
              [Action.wgApplyDone] := by
        rw [hP, handleApplyError_decomp]
        simp
      rw [htr] at heq
      have hnF : Action.sendStatus (schema ++ "." ++ table) "ERROR" ∉
          Action.logAppend :: cleanupActions table files k ++ [Action.incErr] := by
        intro hm
        rcases List.mem_cons.mp hm with h1 | h1
        · exact Action.noConfusion h1
        · rcases List.mem_append.mp h1 with h2 | h2
          · exact sendStatus_not_mem_cleanup _ _ table files k h2
          · simp at h2
      have hnp : Action.sendStatus (schema ++ "." ++ table) "ERROR" ∉
          P ++ (Action.logAppend :: cleanupActions table files k ++
            [Action.incErr]) := by
        intro hm
        rcases List.mem_append.mp hm with h | h
        · exact hE h
        · exact hnF h
      have hns : Action.sendStatus (schema ++ "." ++ table) "ERROR" ∉
          [Action.wgApplyDone] := by simp
      obtain ⟨ha, hb⟩ := append_cons_eq_split
        (P ++ (Action.logAppend :: cleanupActions table files k ++
          [Action.incErr])) hnp hns heq
      refine ⟨hb, ?_, ?_, ?_, ?_, ?_⟩
      · rw [ha]; simp
      · rw [ha]
        have := rollback_mem_cleanup table files k
        simp [this]
      · intro f hf
        rw [htr] at hf
        rcases List.mem_append.mp hf with h1 | h1
        · rw [ha]; exact h1
        · rcases List.mem_cons.mp h1 with h2 | h2
          · exact Action.noConfusion h2
          · simp at h2
      · intro t' ht'
        rw [htr] at ht'
        rcases List.mem_append.mp ht' with h1 | h1
        · rw [ha]; exact h1
        · rcases List.mem_cons.mp h1 with h2 | h2
          · exact Action.noConfusion h2
          · simp at h2
      · intro hu
        rw [htr] at hu
        rcases List.mem_append.mp hu with h1 | h1
        · rw [ha]; exact h1
        · rcases List.mem_cons.mp h1 with h2 | h2
          · exact Action.noConfusion h2
          · simp at h2
    · exfalso
      rw [hP] at heq
      have hnm : Action.sendStatus (schema ++ "." ++ table) "ERROR" ∉
          P ++ [Action.commitTx,
            Action.sendStatus (schema ++ "." ++ table) "Restored",
            Action.wgApplyDone] := by
        intro hm
        rcases List.mem_append.mp hm with h | h
        · exact hE h
        · simp at h
      exact not_mem_of_eq_append_cons hnm heq

/-- Witness for C2: a successful concrete InnoDB run split at its
`Restored` send yields the commit among the preceding actions, and a
drop-failure run split at its `ERROR` send has only the wait-group
release after it, with the log append among the preceding actions. -/
theorem applyTables_status_order_witness :
    Action.commitTx ∈
      [Action.sendStatus "s.t" "Applying", Action.beginTx, Action.setFKChecks,
       Action.setLockTimeout, Action.useSchema "s", Action.fetchCreate "t",
       Action.execDropTable "t", Action.execCreateTable "t",
       Action.execDiscard "t", Action.execLock "t",
       Action.execImportTablespace "t", Action.execAnalyze "t",
       Action.execUnlockTables, Action.commitTx] ∧
    Action.logAppend ∈
      [Action.sendStatus "s.t" "Applying", Action.beginTx, Action.setFKChecks,
       Action.setLockTimeout, Action.useSchema "s", Action.fetchCreate "t",
       Action.logAppend, Action.rollbackTx, Action.incErr] :=
  ⟨(applyTables_status_order "InnoDB" "s" "t" []
      ⟨false, false, false, false, none, false, false, false⟩
      (Or.inl rfl)).1
    [Action.sendStatus "s.t" "Applying", Action.beginTx, Action.setFKChecks,
     Action.setLockTimeout, Action.useSchema "s", Action.fetchCreate "t",
     Action.execDropTable "t", Action.execCreateTable "t",
     Action.execDiscard "t", Action.execLock "t",
     Action.execImportTablespace "t", Action.execAnalyze "t",
     Action.execUnlockTables, Action.commitTx]
    [Action.wgApplyDone] (by decide),
   ((applyTables_status_order "InnoDB" "s" "t" []
      ⟨true, false, false, false, none, false, false, false⟩
      (Or.inl rfl)).2
    [Action.sendStatus "s.t" "Applying", Action.beginTx, Action.setFKChecks,
     Action.setLockTimeout, Action.useSchema "s", Action.fetchCreate "t",
     Action.logAppend, Action.rollbackTx, Action.incErr]
    [Action.wgApplyDone] (by decide)).2.1⟩

/-! ### client.go: downloadTable and the download worker loop

A `DlJob` carries the HTTP probe outcomes (status codes of the HEAD
requests), the server/streamed byte counts per extension, and the failure
oracle for the apply stage that a completed download hands over to. -/

/-- `strings.HasPrefix(version, "5.1") || strings.HasPrefix(version, "5.5")`,
over the character list of the version string. -/
def legacyVersion (v : String) : Bool :=
  List.isPrefixOf ['5', '.', '1'] v.data || List.isPrefixOf ['5', '.', '5'] v.data

structure DlJob where
  schema : String
  table : String
  version : String
  ibdStatus : Nat
  mydStatus : Nat
  expStatus : Nat
  /-- per extension: (server content length, streamed byte count) -/
  sizes : String → Int × Int
  fsSpec : FailSpec

/-- The staging file created for one extension of a table. -/
def stagedFile (j : DlJob) (ext : String) : TFile :=
  { schema := j.schema, table := j.table, ext := ext, staged := true }

/-- The engine probe of `downloadTable`: HEAD the `.ibd`, else the `.MYD`;
InnoDB tables on legacy (5.1/5.5) servers also transfer the `.exp`. -/
def probeEngine (j : DlJob) : Option (String × List String) :=
  if j.ibdStatus = 200 then
    some ("InnoDB", (if legacyVersion j.version then [".exp"] else []) ++ [".ibd"])
  else if j.mydStatus = 200 then
    some ("MyISAM", [".MYI", ".MYD", ".frm"])
  else none

/-- The per-extension download loop of `downloadTable`.  For `.exp` the
server is HEADed first; a non-200 answer makes `checkHTTP` print and exit
the process (status 1) — the in-loop skip branch below it is unreachable.
Otherwise the staging file is created, the body streamed, and on a byte
count differing from the advertised content length the staging file is
removed; the staged path is appended to the returned file list either
way.  Returns the action trace and `some files` on completion, `none`
when the process exited. -/
def downloadExts (j : DlJob) : List String → List Action × Option (List TFile)
  | [] => ([], some [])
  | ext :: rest =>
      if ext = ".exp" ∧ j.expStatus ≠ 200 then
        ([Action.headRequest (j.table ++ ".exp"), Action.exitProc 1], none)
      else
        let hd := if ext = ".exp" then [Action.headRequest (j.table ++ ".exp")]
          else []
        let f := stagedFile j ext
        let dl := [Action.createFile f, Action.getFile f] ++
          (if (j.sizes ext).2 ≠ (j.sizes ext).1 then [Action.removeFile f] else [])
        let r := downloadExts j rest
        (hd ++ dl ++ r.1, r.2.map (f :: ·))

/-- `downloadTable` from `client.go`: announce, probe the engine (skip the
table when neither probe answers 200), download the extension files, and
hand the staged file list to `applyTables`.  The second component records
whether the process exited inside the loop. -/
def downloadTable (j : DlJob) : List Action × Bool :=
  let fq := j.schema ++ "." ++ j.table
  match probeEngine j with
  | none =>
      ([Action.sendStatus fq "Downloading",
        Action.headRequest (j.table ++ ".ibd"),
        Action.headRequest (j.table ++ ".MYD"), Action.skipLog j.table], false)
  | some (engine, exts) =>
      let probe := [Action.sendStatus fq "Downloading",
        Action.headRequest (j.table ++ ".ibd")] ++
        (if j.ibdStatus = 200 then []
         else [Action.headRequest (j.table ++ ".MYD")])
      match downloadExts j exts with
      | (acts, none) => (probe ++ acts, true)
      | (acts, some files) =>
          (probe ++ acts ++ applyTables engine j.schema j.table files j.fsSpec,
           false)

/-- One iteration of the download worker goroutine of `startClient`:
`downloadTable(clientConfig, d); wgDownload.Done()` — the wait-group is
decremented after `downloadTable` returns (unless the process exited). -/
def workerStep (j : DlJob) : List Action :=
  let d := downloadTable j
  d.1 ++ (if d.2 then [] else [Action.wgDownloadDone])

/-- **C3, counterexample**.  Concrete skip jobs refuting the claim as
stated.  First job (neither `.ibd` nor `.MYD` found): the worker logs the
skip but the worker loop still decrements the download wait-group once —
not "neither wait-group".  Second job (legacy version, `.ibd` found,
`.exp` missing): `checkHTTP` exits the process with status 1 before the
skip branch, so no skip is logged and no wait-group is decremented. -/
theorem downloadTable_skip_counterexample :
    (Action.skipLog "t" ∈ workerStep
      { schema := "s", table := "t", version := "5.6.1", ibdStatus := 404,
        mydStatus := 404, expStatus := 404, sizes := fun _ => (0, 0),
        fsSpec := ⟨false, false, false, false, none, false, false, false⟩ } ∧
     (workerStep
      { schema := "s", table := "t", version := "5.6.1", ibdStatus := 404,
        mydStatus := 404, expStatus := 404, sizes := fun _ => (0, 0),
        fsSpec := ⟨false, false, false, false, none, false, false, false⟩ }).count
       Action.wgDownloadDone = 1) ∧
    (Action.exitProc 1 ∈ workerStep
      { schema := "s", table := "t", version := "5.5.30", ibdStatus := 200,
        mydStatus := 404, expStatus := 404, sizes := fun _ => (0, 0),
        fsSpec := ⟨false, false, false, false, none, false, false, false⟩ } ∧
     Action.skipLog "t" ∉ workerStep
      { schema := "s", table := "t", version := "5.5.30", ibdStatus := 200,
        mydStatus := 404, expStatus := 404, sizes := fun _ => (0, 0),
        fsSpec := ⟨false, false, false, false, none, false, false, false⟩ }) := by
  decide

/-- **C3, amended** (`client.go` `startClient` worker loop and
`downloadTable`).  When the engine probe finds neither a `.ibd` nor a
`.MYD` file, the worker logs a skip and completes the job without
decrementing the apply wait-group (no `applyTables`, hence no
`wgApply.Done`), but the download wait-group *is* decremented exactly once
by the worker loop.  When a legacy version's `.exp` file is missing, the
process exits with status 1 from `checkHTTP` before the unreachable skip
branch: nothing further is logged and neither wait-group is decremented. -/
theorem downloadTable_skip_wait_groups (j : DlJob) :
    (j.ibdStatus ≠ 200 → j.mydStatus ≠ 200 →
      Action.skipLog j.table ∈ workerStep j ∧
      Action.wgApplyDone ∉ workerStep j ∧
      (workerStep j).count Action.wgDownloadDone = 1) ∧
    (legacyVersion j.version = true → j.ibdStatus = 200 → j.expStatus ≠ 200 →
      Action.exitProc 1 ∈ workerStep j ∧
      Action.skipLog j.table ∉ workerStep j ∧
      Action.wgApplyDone ∉ workerStep j ∧
      Action.wgDownloadDone ∉ workerStep j) := by
  constructor
  · intro h1 h2
    have hprobe : probeEngine j = none := by
      rw [probeEngine, if_neg h1, if_neg h2]
    refine ⟨?_, ?_, ?_⟩ <;>
      simp [workerStep, downloadTable, hprobe, List.count_cons]
  · intro hl hibd hexp
    have hprobe : probeEngine j = some ("InnoDB", [".exp", ".ibd"]) := by
      rw [probeEngine, if_pos hibd, hl]
      rfl
    have hdl : downloadExts j [".exp", ".ibd"] =
        ([Action.headRequest (j.table ++ ".exp"), Action.exitProc 1], none) := by
      rw [downloadExts, if_pos ⟨rfl, hexp⟩]
    refine ⟨?_, ?_, ?_, ?_⟩ <;>
      simp [workerStep, downloadTable, hprobe, hdl, hibd]

/-- Witness for C3 (amended) at the two concrete jobs of the
counterexample. -/
theorem downloadTable_skip_wait_groups_witness :
    (workerStep
      { schema := "s", table := "t", version := "5.6.1", ibdStatus := 404,
        mydStatus := 404, expStatus := 404, sizes := fun _ => (0, 0),
        fsSpec := ⟨false, false, false, false, none, false, false, false⟩ }).count
      Action.wgDownloadDone = 1 ∧
    Action.wgDownloadDone ∉ workerStep
      { schema := "s", table := "t", version := "5.5.30", ibdStatus := 200,
        mydStatus := 404, expStatus := 404, sizes := fun _ => (0, 0),
        fsSpec := ⟨false, false, false, false, none, false, false, false⟩ } :=
  ⟨((downloadTable_skip_wait_groups
      { schema := "s", table := "t", version := "5.6.1", ibdStatus := 404,
        mydStatus := 404, expStatus := 404, sizes := fun _ => (0, 0),
        fsSpec := ⟨false, false, false, false, none, false, false, false⟩ }).1
      (by decide) (by decide)).2.2,
   ((downloadTable_skip_wait_groups
      { schema := "s", table := "t", version := "5.5.30", ibdStatus := 200,
        mydStatus := 404, expStatus := 404, sizes := fun _ => (0, 0),
        fsSpec := ⟨false, false, false, false, none, false, false, false⟩ }).2
      (by decide) (by decide) (by decide)).2.2.2⟩

/-! C4 machinery: the disk after the download loop. -/

theorem runDisk_append (t1 t2 : List Action) (d : List TFile) :
    runDisk (t1 ++ t2) d = runDisk t2 (runDisk t1 d) := by
  simp [runDisk, List.foldl_append]

theorem runDisk_cons (a : Action) (t : List Action) (d : List TFile) :
    runDisk (a :: t) d = runDisk t (diskStep d a) := rfl

/-- Staging files for different extensions of a job are different. -/
theorem stagedFile_inj (j : DlJob) {e1 e2 : String} (h : e1 ≠ e2) :
    stagedFile j e1 ≠ stagedFile j e2 := by
  intro hc
  rw [stagedFile, stagedFile, TFile.mk.injEq] at hc
  exact h hc.2.2.1

/-- Extensions not in the processed list never put their staging file on
disk. -/
theorem downloadExts_disk_absent (j : DlJob) :
    ∀ (exts : List String) (d : List TFile) (ext : String),
      ext ∉ exts → stagedFile j ext ∉ d →
      stagedFile j ext ∉ runDisk (downloadExts j exts).1 d := by
  intro exts
  induction exts with
  | nil => intro d ext _ hd; simpa [downloadExts, runDisk] using hd
  | cons e rest ih =>
    intro d ext hne hd
    have hne1 : ext ≠ e := fun h => hne (h ▸ List.mem_cons_self e rest)
    have hner : ext ∉ rest := fun h => hne (List.mem_cons_of_mem e h)
    have hfne : stagedFile j e ≠ stagedFile j ext := stagedFile_inj j hne1.symm
    have hmem1 : stagedFile j ext ∉ d ++ [stagedFile j e] := by
      intro hc
      rcases List.mem_append.mp hc with h | h
      · exact hd h
      · simp only [List.mem_singleton] at h
        exact hfne h.symm
    have hmem2 : stagedFile j ext ∉
        List.filter (fun x => decide (x ≠ stagedFile j e))
          (d ++ [stagedFile j e]) :=
      fun hc => hmem1 (List.mem_of_mem_filter hc)
    by_cases hx : e = ".exp" ∧ j.expStatus ≠ 200
    · rw [downloadExts, if_pos hx]
      simpa [runDisk, diskStep] using hd
    · rw [downloadExts, if_neg hx]
      by_cases hexp : e = ".exp" <;> by_cases hmm : (j.sizes e).2 ≠ (j.sizes e).1
      · simp only [if_pos hexp, if_pos hmm, List.cons_append, List.nil_append]
        simp only [runDisk_cons, diskStep, List.cons_append, List.nil_append]
        exact ih _ ext hner hmem2
      · simp only [if_pos hexp, if_neg hmm, List.cons_append, List.nil_append,
          List.append_nil]
        simp only [runDisk_cons, diskStep, List.cons_append, List.nil_append]
        exact ih _ ext hner hmem1
      · simp only [if_neg hexp, if_pos hmm, List.cons_append, List.nil_append]
        simp only [runDisk_cons, diskStep, List.cons_append, List.nil_append]
        exact ih _ ext hner hmem2
      · simp only [if_neg hexp, if_neg hmm, List.cons_append, List.nil_append,
          List.append_nil]
        simp only [runDisk_cons, diskStep, List.cons_append, List.nil_append]
        exact ih _ ext hner hmem1

/-- A staging file whose download was size-mismatched (and therefore
removed) is not on disk after the download loop, provided the extension
list has no duplicates (true of both engine lists). -/
theorem downloadExts_disk_mismatch (j : DlJob) :
    ∀ (exts : List String) (d : List TFile) (ext : String),
      exts.Nodup → ext ∈ exts →
      (j.sizes ext).2 ≠ (j.sizes ext).1 →
      stagedFile j ext ∉ d →
      stagedFile j ext ∉ runDisk (downloadExts j exts).1 d := by
  intro exts
  induction exts with
  | nil => intro d ext _ hm; simp at hm
  | cons e rest ih =>
    intro d ext hnd hm hsz hd
    obtain ⟨henin, hndr⟩ := List.nodup_cons.mp hnd
    by_cases hx : e = ".exp" ∧ j.expStatus ≠ 200
    · rw [downloadExts, if_pos hx]
      simpa [runDisk, diskStep] using hd
    · rcases List.mem_cons.mp hm with heq | hmr
      · subst heq
        have hner : ext ∉ rest := henin
        have hself : stagedFile j ext ∉
            List.filter (fun x => decide (x ≠ stagedFile j ext))
              (d ++ [stagedFile j ext]) := by
          intro hc
          have := (List.mem_filter.mp hc).2
          simp at this
        rw [downloadExts, if_neg hx]
        by_cases hexp : ext = ".exp"
        · simp only [if_pos hexp, if_pos hsz, List.cons_append, List.nil_append]
          simp only [runDisk_cons, diskStep, List.cons_append, List.nil_append]
          exact downloadExts_disk_absent j rest _ ext hner hself
        · simp only [if_neg hexp, if_pos hsz, List.cons_append, List.nil_append]
          simp only [runDisk_cons, diskStep, List.cons_append, List.nil_append]
          exact downloadExts_disk_absent j rest _ ext hner hself
      · have hne1 : ext ≠ e := fun h => henin (h ▸ hmr)
        have hfne : stagedFile j e ≠ stagedFile j ext := stagedFile_inj j hne1.symm
        have hmem1 : stagedFile j ext ∉ d ++ [stagedFile j e] := by
          intro hc
          rcases List.mem_append.mp hc with h | h
          · exact hd h
          · simp only [List.mem_singleton] at h
            exact hfne h.symm
        have hmem2 : stagedFile j ext ∉
            List.filter (fun x => decide (x ≠ stagedFile j e))
              (d ++ [stagedFile j e]) :=
          fun hc => hmem1 (List.mem_of_mem_filter hc)
        rw [downloadExts, if_neg hx]
        by_cases hexp : e = ".exp" <;> by_cases hmm : (j.sizes e).2 ≠ (j.sizes e).1
        · simp only [if_pos hexp, if_pos hmm, List.cons_append, List.nil_append]
          simp only [runDisk_cons, diskStep, List.cons_append, List.nil_append]
          exact ih _ ext hndr hmr hsz hmem2
        · simp only [if_pos hexp, if_neg hmm, List.cons_append, List.nil_append,
            List.append_nil]
          simp only [runDisk_cons, diskStep, List.cons_append, List.nil_append]
          exact ih _ ext hndr hmr hsz hmem1
        · simp only [if_neg hexp, if_pos hmm, List.cons_append, List.nil_append]
          simp only [runDisk_cons, diskStep, List.cons_append, List.nil_append]
          exact ih _ ext hndr hmr hsz hmem2
        · simp only [if_neg hexp, if_neg hmm, List.cons_append, List.nil_append,
            List.append_nil]
          simp only [runDisk_cons, diskStep, List.cons_append, List.nil_append]
          exact ih _ ext hndr hmr hsz hmem1

/-- The download loop never issues a transaction rollback. -/
theorem downloadExts_no_rollback (j : DlJob) :
    ∀ exts, Action.rollbackTx ∉ (downloadExts j exts).1 := by
  intro exts
  induction exts with
  | nil => simp [downloadExts]
  | cons e rest ih =>
    by_cases hx : e = ".exp" ∧ j.expStatus ≠ 200
    · rw [downloadExts, if_pos hx]; simp
    · rw [downloadExts, if_neg hx]
      by_cases hmm : (j.sizes e).2 ≠ (j.sizes e).1 <;>
        by_cases hexp : e = ".exp" <;>
          simp [hmm, hexp, ih]

/-- No GET is issued for an extension outside the processed list. -/
theorem downloadExts_getFile_not_mem (j : DlJob) :
    ∀ exts ext, ext ∉ exts →
      Action.getFile (stagedFile j ext) ∉ (downloadExts j exts).1 := by
  intro exts
  induction exts with
  | nil => intro ext _; simp [downloadExts]
  | cons e rest ih =>
    intro ext hne
    have hne1 : e ≠ ext := fun h => hne (h ▸ List.mem_cons_self e rest)
    have hner : ext ∉ rest := fun h => hne (List.mem_cons_of_mem e h)
    have hf : stagedFile j e ≠ stagedFile j ext := stagedFile_inj j hne1
    by_cases hx : e = ".exp" ∧ j.expStatus ≠ 200
    · rw [downloadExts, if_pos hx]; simp
    · rw [downloadExts, if_neg hx]
      by_cases hexp : e = ".exp"
      · subst hexp
        by_cases hmm : (j.sizes ".exp").2 ≠ (j.sizes ".exp").1 <;>
          simp [hmm, ih ext hner, hf, Ne.symm hf]
      · by_cases hmm : (j.sizes e).2 ≠ (j.sizes e).1 <;>
          simp [hmm, hexp, ih ext hner, hf, Ne.symm hf]

/-- Each extension's file is requested at most once (no retry). -/
theorem downloadExts_getFile_count (j : DlJob) :
    ∀ exts ext, exts.Nodup →
      (downloadExts j exts).1.count (Action.getFile (stagedFile j ext)) ≤ 1 := by
  intro exts
  induction exts with
  | nil => intro ext _; simp [downloadExts]
  | cons e rest ih =>
    intro ext hnd
    obtain ⟨henin, hndr⟩ := List.nodup_cons.mp hnd
    by_cases hx : e = ".exp" ∧ j.expStatus ≠ 200
    · rw [downloadExts, if_pos hx]; simp
    · rw [downloadExts, if_neg hx]
      by_cases heq : ext = e
      · subst heq
        have hzero : Action.getFile (stagedFile j ext) ∉ (downloadExts j rest).1 :=
          downloadExts_getFile_not_mem j rest ext henin
        by_cases hexp : ext = ".exp"
        · subst hexp
          by_cases hmm : (j.sizes ".exp").2 ≠ (j.sizes ".exp").1 <;>
            simp [hmm, List.count_append, List.count_cons,
              List.count_eq_zero_of_not_mem hzero]
        · by_cases hmm : (j.sizes ext).2 ≠ (j.sizes ext).1 <;>
            simp [hmm, hexp, List.count_append, List.count_cons,
              List.count_eq_zero_of_not_mem hzero]
      · have hf : stagedFile j e ≠ stagedFile j ext :=
          stagedFile_inj j (fun h => heq h.symm)
        have hle := ih ext hndr
        by_cases hexp : e = ".exp"
        · subst hexp
          by_cases hmm : (j.sizes ".exp").2 ≠ (j.sizes ".exp").1 <;>
            simp [hmm, List.count_append, List.count_cons, hf, Ne.symm hf] <;>
              omega
        · by_cases hmm : (j.sizes e).2 ≠ (j.sizes e).1 <;>
            simp [hmm, hexp, List.count_append, List.count_cons, hf,
              Ne.symm hf] <;> omega

/-- **C4, counterexample**.  A legacy-version table whose `.exp` download
matches but whose `.ibd` streamed size mismatches: the `.ibd` staging
file is removed, yet the `.exp` staging file is still on disk after the
download loop — the table does *not* leave "no file on disk". -/
theorem download_mismatch_counterexample :
    runDisk (downloadExts
      { schema := "s", table := "t", version := "5.5.30", ibdStatus := 200,
        mydStatus := 404, expStatus := 200,
        sizes := fun e => if e = ".ibd" then (5, 3) else (7, 7),
        fsSpec := ⟨false, false, false, false, none, false, false, false⟩ }
      [".exp", ".ibd"]).1 [] =
      [{ schema := "s", table := "t", ext := ".exp", staged := true }] ∧
    Action.removeFile { schema := "s", table := "t", ext := ".ibd", staged := true } ∈
      (downloadExts
        { schema := "s", table := "t", version := "5.5.30", ibdStatus := 200,
          mydStatus := 404, expStatus := 200,
          sizes := fun e => if e = ".ibd" then (5, 3) else (7, 7),
          fsSpec := ⟨false, false, false, false, none, false, false, false⟩ }
        [".exp", ".ibd"]).1 := by
  decide

/-- **C4, amended** (`client.go` `downloadTable`).
For every downloaded file whose streamed byte count differs from the
advertised content length, that file's staging file is removed and is not
on disk after the download loop; each extension's file is requested at
most once (no retry) and the loop never rolls anything back.  A table
whose only transferred file is the `.ibd` (non-legacy server versions)
therefore leaves no file on disk; for legacy tables the other staged
files (the `.exp`) remain, as the counterexample shows. -/
theorem download_mismatch_spec (j : DlJob) :
    (∀ (exts : List String) (ext : String), exts.Nodup → ext ∈ exts →
      (j.sizes ext).2 ≠ (j.sizes ext).1 →
      stagedFile j ext ∉ runDisk (downloadExts j exts).1 []) ∧
    (∀ (exts : List String) (ext : String), exts.Nodup →
      (downloadExts j exts).1.count (Action.getFile (stagedFile j ext)) ≤ 1) ∧
    (∀ exts : List String, Action.rollbackTx ∉ (downloadExts j exts).1) ∧
    (legacyVersion j.version = false → j.ibdStatus = 200 →
      (j.sizes ".ibd").2 ≠ (j.sizes ".ibd").1 →
      probeEngine j = some ("InnoDB", [".ibd"]) ∧
      runDisk (downloadExts j [".ibd"]).1 [] = []) := by
  refine ⟨fun exts ext hnd hm hsz =>
      downloadExts_disk_mismatch j exts [] ext hnd hm hsz (by simp),
    fun exts ext hnd => downloadExts_getFile_count j exts ext hnd,
    fun exts => downloadExts_no_rollback j exts,
    fun hleg hibd hmm => ⟨?_, ?_⟩⟩
  · rw [probeEngine, if_pos hibd, hleg]
    rfl
  · rw [downloadExts, if_neg (by simp)]
    simp [hmm, downloadExts, runDisk_cons, diskStep, runDisk]

/-- Witness for C4 (amended): a modern job with a mismatched `.ibd`
leaves an empty disk, and on the legacy counterexample job the `.ibd`
staging file itself is gone. -/
theorem download_mismatch_spec_witness :
    runDisk (downloadExts
      { schema := "s", table := "t", version := "5.6.20", ibdStatus := 200,
        mydStatus := 404, expStatus := 404,
        sizes := fun e => if e = ".ibd" then (5, 3) else (7, 7),
        fsSpec := ⟨false, false, false, false, none, false, false, false⟩ }
      [".ibd"]).1 [] = [] ∧
    stagedFile
      { schema := "s", table := "t", version := "5.5.30", ibdStatus := 200,
        mydStatus := 404, expStatus := 200,
        sizes := fun e => if e = ".ibd" then (5, 3) else (7, 7),
        fsSpec := ⟨false, false, false, false, none, false, false, false⟩ }
      ".ibd" ∉
      runDisk (downloadExts
        { schema := "s", table := "t", version := "5.5.30", ibdStatus := 200,
          mydStatus := 404, expStatus := 200,
          sizes := fun e => if e = ".ibd" then (5, 3) else (7, 7),
          fsSpec := ⟨false, false, false, false, none, false, false, false⟩ }
        [".exp", ".ibd"]).1 [] :=
  ⟨((download_mismatch_spec
      { schema := "s", table := "t", version := "5.6.20", ibdStatus := 200,
        mydStatus := 404, expStatus := 404,
        sizes := fun e => if e = ".ibd" then (5, 3) else (7, 7),
        fsSpec := ⟨false, false, false, false, none, false, false, false⟩ }).2.2.2
      (by decide) (by decide) (by decide)).2,
   (download_mismatch_spec
      { schema := "s", table := "t", version := "5.5.30", ibdStatus := 200,
        mydStatus := 404, expStatus := 200,
        sizes := fun e => if e = ".ibd" then (5, 3) else (7, 7),
        fsSpec := ⟨false, false, false, false, none, false, false, false⟩ }).1
      [".exp", ".ibd"] ".ibd" (by decide) (by decide) (by decide)⟩

/-! ### client.go: applyObjects and the object phase of startClient -/

/-- The JSON object definition (`createInfoStruct` in `common.go`). -/
structure ObjDef where
  name : String
  sqlMode : String
  charsetClient : String
  collation : String
  dbCollation : String
  createStmt : String
  deriving DecidableEq, Repr

/-- Object name as derived by `applyObjects`: the base of `parseFileName`. -/
def objectBaseName (o : String) : String := String.mk (parseFileName o.data).1

/-- The per-object body of `applyObjects`: drop-if-exists, fetch the JSON
definition, restore each recorded session variable if non-empty, execute
the stored creation statement. -/
def applyOneObject (objType : String) (o : String) (d : ObjDef) : List Action :=
  [Action.execDropObject objType (objectBaseName o), Action.getRequest o] ++
  (if d.sqlMode ≠ "" then [Action.setSessionVar "sql_mode"] else []) ++
  (if d.charsetClient ≠ "" then [Action.setSessionVar "character_set_client"]
   else []) ++
  (if d.collation ≠ "" then [Action.setSessionVar "collation_connection"]
   else []) ++
  (if d.dbCollation ≠ "" then [Action.setSessionVar "collation_database"]
   else []) ++
  [Action.execCreateObject objType (objectBaseName o)]

/-- `applyObjects` from `client.go`: one transaction per (schema, object
type), applying every listed object inside it. -/
def applyObjects (schema objType : String) (objs : List (String × ObjDef)) :
    List Action :=
  [Action.beginTx, Action.setFKChecks, Action.useSchema schema,
   Action.getRequest (schema ++ "/" ++ objType ++ "s"),
   Action.printLine ("Applying " ++ objType ++ "s for " ++ schema)] ++
  (objs.flatMap fun od => applyOneObject objType od.1 od.2) ++
  [Action.commitTx]

/-- `objectTypes := []string{"trigger", "view", "procedure", "function"}`. -/
def objectTypes : List String := ["trigger", "view", "procedure", "function"]

/-- The tail of `startClient` after the table phase: wait on the download
and apply wait-groups, then for each schema (fetcher order) apply each
object type in the declared order. -/
def clientObjectPhase (schemas : List String)
    (objOf : String → String → List (String × ObjDef)) : List Action :=
  [Action.waitDownload, Action.waitApply] ++
  schemas.flatMap (fun schema =>
    objectTypes.flatMap (fun ot => applyObjects schema ot (objOf schema ot)))

theorem beginTx_not_mem_applyOneObject (ot o : String) (d : ObjDef) :
    Action.beginTx ∉ applyOneObject ot o d := by
  rw [applyOneObject]
  split_ifs <;> simp

theorem commitTx_not_mem_applyOneObject (ot o : String) (d : ObjDef) :
    Action.commitTx ∉ applyOneObject ot o d := by
  rw [applyOneObject]
  split_ifs <;> simp

/-- **C5** (`client.go` `startClient` object phase and `applyObjects`).
After both wait-groups return, the object phase iterates schemas in
fetcher order and applies, for each schema, exactly the object types
trigger, view, procedure, function in that order; and every
`applyObjects` call is one transaction: it begins a transaction, runs a
body containing no transaction begin or commit, and ends with the single
commit. -/
theorem objectPhase_order (schemas : List String)
    (objOf : String → String → List (String × ObjDef)) :
    clientObjectPhase schemas objOf =
      [Action.waitDownload, Action.waitApply] ++
      schemas.flatMap (fun schema =>
        (["trigger", "view", "procedure", "function"]).flatMap (fun ot =>
          applyObjects schema ot (objOf schema ot))) ∧
    ∀ (schema ot : String) (objs : List (String × ObjDef)),
      ∃ mid, applyObjects schema ot objs =
        Action.beginTx :: mid ++ [Action.commitTx] ∧
        Action.beginTx ∉ mid ∧ Action.commitTx ∉ mid := by
  constructor
  · rfl
  · intro schema ot objs
    refine ⟨[Action.setFKChecks, Action.useSchema schema,
      Action.getRequest (schema ++ "/" ++ ot ++ "s"),
      Action.printLine ("Applying " ++ ot ++ "s for " ++ schema)] ++
      (objs.flatMap fun od => applyOneObject ot od.1 od.2), ?_, ?_, ?_⟩
    · simp [applyObjects]
    · intro hm
      rcases List.mem_append.mp hm with h | h
      · simp at h
      · obtain ⟨od, _, hmo⟩ := List.mem_flatMap.mp h
        exact beginTx_not_mem_applyOneObject ot od.1 od.2 hmo
    · intro hm
      rcases List.mem_append.mp hm with h | h
      · simp at h
      · obtain ⟨od, _, hmo⟩ := List.mem_flatMap.mp h
        exact commitTx_not_mem_applyOneObject ot od.1 od.2 hmo

/-! ### client.go: the display serializer

State of the `display` goroutine: the last drawn line length, the current
display event, the queue, and the `displayTable` focus cell.  The
`rendered` field records, in order, every `STATUS: table` line the
function writes (the in-place `\r` line for the current table, the
newline-terminated drained terminal lines, and the line for a newly
promoted current table). -/

structure DispEvent where
  fqTable : String
  status : String
  deriving DecidableEq, Repr

structure DisplayState where
  lastLen : Nat
  current : DispEvent
  queue : List DispEvent
  displayTable : String
  rendered : List DispEvent
  deriving DecidableEq, Repr

def initDisplay : DisplayState :=
  { lastLen := 0, current := ⟨"", ""⟩, queue := [], displayTable := "",
    rendered := [] }

def isTerminal (s : String) : Bool := s = "Restored" || s = "ERROR"

def lineOf (e : DispEvent) : String := e.status ++ ": " ++ e.fqTable

/-- Queue update for an event of a non-current table: replace the entry of
the same table if present, otherwise append. -/
def queueUpdate (q : List DispEvent) (e : DispEvent) : List DispEvent :=
  if q.isEmpty then [e]
  else if q.any (fun x => x.fqTable = e.fqTable) then
    q.map (fun x => if x.fqTable = e.fqTable then e else x)
  else q ++ [e]

/-- The drain loop over the queue when the current table reached a
terminal status: terminal entries are printed (first component, in queue
order), non-terminal entries of other tables are kept (second
component). -/
def drainFilter (cur : String) : List DispEvent → List DispEvent × List DispEvent
  | [] => ([], [])
  | x :: rest =>
      let r := drainFilter cur rest
      if isTerminal x.status then (x :: r.1, r.2)
      else if x.fqTable ≠ cur then (r.1, x :: r.2)
      else (r.1, r.2)

/-- One iteration of the `display` receive loop, faithful to `client.go`
including the branch where the drain filter leaves no events: there the
code blanks the current table but does *not* reassign `displayQueue`, so
the stale entries survive. -/
def displayStep (st : DisplayState) (ev : DispEvent) : DisplayState :=
  let cur0 := if st.current.fqTable = "" then ev else st.current
  let dt0 := if st.displayTable = "" ∧ cur0.status = "Downloading"
    then cur0.fqTable else st.displayTable
  if cur0.fqTable = ev.fqTable then
    let lastLen1 := (lineOf ev).length
    let rendered1 := st.rendered ++ [ev]
    if isTerminal ev.status then
      if st.queue.isEmpty then
        { lastLen := lastLen1, current := { cur0 with fqTable := "" },
          queue := st.queue, displayTable := dt0, rendered := rendered1 }
      else
        let dr := drainFilter cur0.fqTable st.queue
        match dr.2 with
        | [] =>
            { lastLen := lastLen1, current := { cur0 with fqTable := "" },
              queue := st.queue, displayTable := "",
              rendered := rendered1 ++ dr.1 }
        | newCur :: _ =>
            { lastLen := (lineOf newCur).length, current := newCur,
              queue := dr.2,
              displayTable := (if newCur.status = "Downloading"
                then newCur.fqTable else dt0),
              rendered := rendered1 ++ dr.1 ++ [newCur] }
    else
      { lastLen := lastLen1, current := cur0, queue := st.queue,
        displayTable := dt0, rendered := rendered1 }
  else
    { st with
      current := cur0
      displayTable := dt0
      queue := queueUpdate st.queue ev }

/-- The display goroutine over a sequence of channel events. -/
def displayRun (evs : List DispEvent) : DisplayState :=
  evs.foldl displayStep initDisplay

/-- The most recent status event received for a table. -/
def lastEventFor (evs : List DispEvent) (t : String) : Option DispEvent :=
  (evs.filter (fun e => e.fqTable = t)).getLast?

/-- **C6** (`client.go` `display`).
Failing run for the claim "every status rendered for a table is that
table's most recently received status event": after the event sequence
A:Downloading, B:Restored, A:Restored, B:ERROR the serializer renders, in
order, A:Downloading, A:Restored, B:Restored, B:ERROR and then a *stale*
B:Restored — because when the drain filter left no events the code did
not reassign `displayQueue` (contradicting its own comment "blank the
current table variable if queue is empty"), so B's old terminal entry is
re-rendered although B's most recent event is ERROR. -/
theorem display_stale_render_bug :
    (displayRun [⟨"A", "Downloading"⟩, ⟨"B", "Restored"⟩, ⟨"A", "Restored"⟩,
        ⟨"B", "ERROR"⟩]).rendered =
      [⟨"A", "Downloading"⟩, ⟨"A", "Restored"⟩, ⟨"B", "Restored"⟩,
       ⟨"B", "ERROR"⟩, ⟨"B", "Restored"⟩] ∧
    (displayRun [⟨"A", "Downloading"⟩, ⟨"B", "Restored"⟩, ⟨"A", "Restored"⟩,
        ⟨"B", "ERROR"⟩]).rendered.getLast? = some ⟨"B", "Restored"⟩ ∧
    lastEventFor [⟨"A", "Downloading"⟩, ⟨"B", "Restored"⟩, ⟨"A", "Restored"⟩,
        ⟨"B", "ERROR"⟩] "B" = some ⟨"B", "ERROR"⟩ := by
  decide

/-! Supporting invariant: the queue never holds two events for one table. -/

theorem drainFilter_sublist (cur : String) :
    ∀ q : List DispEvent, (drainFilter cur q).2.Sublist q := by
  intro q
  induction q with
  | nil => simp [drainFilter]
  | cons x rest ih =>
    rw [drainFilter]
    split
    · exact ih.cons x
    · split
      · exact ih.cons₂ x
      · exact ih.cons x

theorem queueUpdate_keys_nodup (q : List DispEvent) (e : DispEvent)
    (h : (q.map (fun x => x.fqTable)).Nodup) :
    ((queueUpdate q e).map (fun x => x.fqTable)).Nodup := by
  rw [queueUpdate]
  split
  · simp
  · split
    · have hkeys : (q.map (fun x => if x.fqTable = e.fqTable then e else x)).map
          (fun x => x.fqTable) = q.map (fun x => x.fqTable) := by
        rw [List.map_map]
        apply List.map_congr_left
        intro x _
        by_cases hx : x.fqTable = e.fqTable <;> simp [hx]
      rw [hkeys]
      exact h
    · next hnone =>
      have hnot : e.fqTable ∉ q.map (fun x => x.fqTable) := by
        intro hm
        obtain ⟨x, hx, hfx⟩ := List.mem_map.mp hm
        exact hnone (List.any_eq_true.mpr ⟨x, hx, by simp [hfx]⟩)
      simp only [List.map_append, List.map_cons, List.map_nil]
      rw [List.nodup_append]
      refine ⟨h, by simp, ?_⟩
      intro a ham hael
      rw [List.mem_singleton] at hael
      exact hnot (hael ▸ ham)

theorem displayStep_keys_nodup (st : DisplayState) (ev : DispEvent)
    (h : (st.queue.map (fun x => x.fqTable)).Nodup) :
    (((displayStep st ev).queue).map (fun x => x.fqTable)).Nodup := by
  rw [displayStep]
  simp only []
  repeat' split
  all_goals first
    | exact h
    | exact h.sublist ((drainFilter_sublist _ st.queue).map _)
    | exact queueUpdate_keys_nodup st.queue ev h

/-- After any event sequence the display queue holds at most one queued
event per table (the part of the queueing claim that does hold). -/
theorem display_queue_at_most_one (evs : List DispEvent) :
    (((displayRun evs).queue).map (fun x => x.fqTable)).Nodup := by
  have hgen : ∀ (l : List DispEvent) (st : DisplayState),
      (st.queue.map (fun x => x.fqTable)).Nodup →
      (((l.foldl displayStep st).queue).map (fun x => x.fqTable)).Nodup := by
    intro l
    induction l with
    | nil => intro st h; exact h
    | cons e rest ih =>
      intro st h
      exact ih (displayStep st e) (displayStep_keys_nodup st e h)
  exact hgen evs initDisplay (by simp [initDisplay])

/-! ### client.go: incErrCount

`incErrCount` declares `var mu sync.Mutex` *inside* the function body, so
every call locks a freshly created mutex: the lock can never be contended
and the unprotected `errCount++` (a load followed by a store) can
interleave between two concurrent callers.  Two interleaving semantics
over a two-thread machine make this precise: `stepLocal` is the code
(lock always succeeds), `stepShared` is the claim's reading (one shared
mutex guarding the increment).  Thread programs are
lock; read errCount; write errCount := reg + 1; unlock — pc 0..4. -/

structure ThreadSt where
  pc : Nat
  reg : Nat
  deriving DecidableEq, Repr

/-- `holder`: 0 = mutex free, 1 = held by thread 0, 2 = held by thread 1
(meaningful only for the shared-mutex semantics). -/
structure CounterSt where
  errCount : Nat
  t0 : ThreadSt
  t1 : ThreadSt
  holder : Nat
  deriving DecidableEq, Repr

def initCounter : CounterSt :=
  { errCount := 0, t0 := ⟨0, 0⟩, t1 := ⟨0, 0⟩, holder := 0 }

/-- One scheduled step of the code's semantics: the mutex is function
local, so `Lock` always succeeds immediately. -/
def stepLocal (s : CounterSt) (t : Bool) : CounterSt :=
  if t then
    if s.t1.pc = 0 then { s with t1 := ⟨1, s.t1.reg⟩ }
    else if s.t1.pc = 1 then { s with t1 := ⟨2, s.errCount⟩ }
    else if s.t1.pc = 2 then { s with errCount := s.t1.reg + 1, t1 := ⟨3, s.t1.reg⟩ }
    else if s.t1.pc = 3 then { s with t1 := ⟨4, s.t1.reg⟩ }
    else s
  else
    if s.t0.pc = 0 then { s with t0 := ⟨1, s.t0.reg⟩ }
    else if s.t0.pc = 1 then { s with t0 := ⟨2, s.errCount⟩ }
    else if s.t0.pc = 2 then { s with errCount := s.t0.reg + 1, t0 := ⟨3, s.t0.reg⟩ }
    else if s.t0.pc = 3 then { s with t0 := ⟨4, s.t0.reg⟩ }
    else s

/-- One scheduled step under a genuinely shared mutex (the claim's
reading): `Lock` succeeds only when nobody holds the mutex, otherwise the
scheduled thread blocks (its step is a no-op). -/
def stepShared (s : CounterSt) (t : Bool) : CounterSt :=
  if t then
    if s.t1.pc = 0 then
      (if s.holder = 0 then { s with t1 := ⟨1, s.t1.reg⟩, holder := 2 } else s)
    else if s.t1.pc = 1 then { s with t1 := ⟨2, s.errCount⟩ }
    else if s.t1.pc = 2 then { s with errCount := s.t1.reg + 1, t1 := ⟨3, s.t1.reg⟩ }
    else if s.t1.pc = 3 then { s with t1 := ⟨4, s.t1.reg⟩, holder := 0 }
    else s
  else
    if s.t0.pc = 0 then
      (if s.holder = 0 then { s with t0 := ⟨1, s.t0.reg⟩, holder := 1 } else s)
    else if s.t0.pc = 1 then { s with t0 := ⟨2, s.errCount⟩ }
    else if s.t0.pc = 2 then { s with errCount := s.t0.reg + 1, t0 := ⟨3, s.t0.reg⟩ }
    else if s.t0.pc = 3 then { s with t0 := ⟨4, s.t0.reg⟩, holder := 0 }
    else s

def runLocal (sched : List Bool) : CounterSt := sched.foldl stepLocal initCounter

def runShared (sched : List Bool) : CounterSt := sched.foldl stepShared initCounter

/-- **C7** (`client.go` `incErrCount`).
Failing schedule for the claim: two tables fail concurrently and the
interleaving lock0 read0 lock1 read1 write0 write1 unlock0 unlock1
completes both `incErrCount` calls but leaves the counter at 1, not 2 -
the function-local mutex serializes nothing, so a concurrent increment is
lost and the final value can undercount the tables that emitted ERROR. -/
theorem incErrCount_lost_update :
    (runLocal [false, false, true, true, false, true, false, true]).t0.pc = 4 ∧
    (runLocal [false, false, true, true, false, true, false, true]).t1.pc = 4 ∧
    (runLocal [false, false, true, true, false, true, false, true]).errCount = 1 ∧
    (1 : Nat) ≠ 2 := by
  decide

/-- The mutex-protected invariant of the shared semantics: the counter
counts the threads past their store, a thread inside the critical section
owns the mutex, and a thread about to store read the current counter. -/
def counterInv (s : CounterSt) : Prop :=
  s.t0.pc ≤ 4 ∧ s.t1.pc ≤ 4 ∧
  ((s.errCount = 0 ∧ s.t0.pc ≤ 2 ∧ s.t1.pc ≤ 2) ∨
   (s.errCount = 1 ∧ 3 ≤ s.t0.pc ∧ s.t1.pc ≤ 2) ∨
   (s.errCount = 1 ∧ s.t0.pc ≤ 2 ∧ 3 ≤ s.t1.pc) ∨
   (s.errCount = 2 ∧ 3 ≤ s.t0.pc ∧ 3 ≤ s.t1.pc)) ∧
  (1 ≤ s.t0.pc → s.t0.pc ≤ 3 → s.holder = 1) ∧
  (1 ≤ s.t1.pc → s.t1.pc ≤ 3 → s.holder = 2) ∧
  (s.t0.pc = 2 → s.t0.reg = s.errCount) ∧
  (s.t1.pc = 2 → s.t1.reg = s.errCount)

theorem counterInv_init : counterInv initCounter := by
  rw [counterInv]
  decide

theorem counterInv_step (s : CounterSt) (t : Bool) (h : counterInv s) :
    counterInv (stepShared s t) := by
  rw [counterInv] at h
  rw [counterInv, stepShared]
  cases t <;> split_ifs <;> simp_all <;> omega

/-- Under a genuinely shared mutex every schedule that completes both
callers yields an error count of exactly 2 — the behavior the claim
describes, which the function-local mutex of the code does not provide. -/
theorem runShared_exact_count (sched : List Bool)
    (h0 : (runShared sched).t0.pc = 4) (h1 : (runShared sched).t1.pc = 4) :
    (runShared sched).errCount = 2 := by
  have hinv : counterInv (runShared sched) := by
    rw [runShared]
    have : ∀ (l : List Bool) (s : CounterSt), counterInv s →
        counterInv (l.foldl stepShared s) := by
      intro l
      induction l with
      | nil => intro s hs; exact hs
      | cons t rest ih => intro s hs; exact ih _ (counterInv_step s t hs)
    exact this sched initCounter counterInv_init
  obtain ⟨-, -, hcount, -, -, -, -⟩ := hinv
  rcases hcount with ⟨he, ha, hb⟩ | ⟨he, ha, hb⟩ | ⟨he, ha, hb⟩ | ⟨he, ha, hb⟩ <;>
    omega

end Trite
